import Mathlib

/-!
Verification of the document segmentation and chunk-extraction orchestrator
(backend/app/services/pdf_chunker.py, chunk_processor.py,
chunk_processor_optimized.py, simple_landing_ai_service.py and
backend/app/api/endpoints/chunks.py) against its specification.

Every definition in the `Apex` namespace is a shallow embedding of the
corresponding Python function; the comment above each one names the source
function it embeds.  File sizes in megabytes are modelled as rationals
(Python floats), page counts and byte counts as naturals.
-/

namespace Apex

/-- Status enumeration of app.models.document_chunk.ChunkStatus. -/
inductive ChunkStatus where
  | PENDING
  | PROCESSING
  | COMPLETED
  | FAILED
  | RETRYING
deriving DecidableEq, Repr

/-- Status enumeration of app.models.document.DocumentStatus (only the members
this core touches). -/
inductive DocumentStatus where
  | PENDING
  | EXTRACTED
  | FAILED
  | CHUNKING
  | CHUNK_PROCESSING
deriving DecidableEq, Repr

/-- Extraction-method enumeration of app.models.document_chunk.ExtractionMethod
plus the FAILED marker string written by SimpleLandingAIService. -/
inductive ExtractionMethod where
  | LANDING_AI_API
  | LANDING_AI_SDK
  | OPENAI_FALLBACK
  | MANUAL
  | FAILED
deriving DecidableEq, Repr

/-! ## Segmenter: PDFChunker (pdf_chunker.py) -/

/-- One element of the list returned by PDFChunker._split_pdf_into_chunks:
the dict with keys chunk_number / start_page / end_page / page_count
(the file_path and file_size_mb entries are filesystem artifacts and are not
modelled). -/
structure ChunkInfo where
  chunk_number : Nat
  start_page : Nat
  end_page : Nat
  page_count : Nat
deriving DecidableEq, Repr

/-- Python range(0, stop, step) for step >= 1: the multiples of step below
stop, in order.  Its length is the ceiling of stop / step. -/
def pyRange (stop step : Nat) : List Nat :=
  (List.range ((stop + step - 1) / step)).map (fun k => k * step)

/-- PDFChunker._split_pdf_into_chunks (pdf_chunker.py lines 218-274) with
chunk_overlap = 0, so the loop step is exactly the effective chunk size.
Each iteration records a chunk covering 0-based pages
[start, min (start + size) total), converted to 1-based start_page/end_page,
with chunk_number counting from 1. -/
def split_pdf_into_chunks (totalPages chunkSize : Nat) : List ChunkInfo :=
  (pyRange totalPages chunkSize).enum.map (fun p =>
    { chunk_number := p.1 + 1
      start_page := p.2 + 1
      end_page := min (p.2 + chunkSize) totalPages
      page_count := min (p.2 + chunkSize) totalPages - p.2 })

/-- What the filesystem shows PDFChunker.should_chunk_document: either
os.path.getsize raises (missing file), or PdfReader raises (not a valid
paginated document), or the file is a readable PDF with a page count and a
byte size. -/
inductive FileProbe where
  | noFile
  | invalidPdf (bytes : Nat)
  | pdf (pages : Nat) (bytes : Nat)
deriving DecidableEq, Repr

/-- Bytes to megabytes: file_size_mb = size / (1024 * 1024). -/
def bytesToMB (bytes : Nat) : ℚ := (bytes : ℚ) / (1024 * 1024)

/-- The try-block of PDFChunker.should_chunk_document (pdf_chunker.py lines
58-74): computes (should_chunk, page_count, file_size_mb); raises when the
file cannot be opened or parsed. -/
def shouldChunkBody (f : FileProbe) : Except String (Bool × Nat × ℚ) :=
  match f with
  | .noFile => .error "file not found"
  | .invalidPdf _ => .error "invalid PDF"
  | .pdf pages bytes =>
      .ok (decide (bytesToMB bytes > 50) || decide (pages > 100), pages, bytesToMB bytes)

/-- PDFChunker.should_chunk_document (pdf_chunker.py lines 51-78): the
except-clause catches every error and returns (False, 0, 0). -/
def should_chunk_document (f : FileProbe) : Bool × Nat × ℚ :=
  match shouldChunkBody f with
  | .ok r => r
  | .error _ => (false, 0, 0)

/-- PDFChunker.calculate_optimal_chunk_size (pdf_chunker.py lines 280-319).
basePages is self.max_pages_per_chunk; fileSizeMB/pageCount are the
document's attributes (none models Python None, and Python's truthiness test
also rejects 0); perf models the current_performance argument: none for a
falsy dict, some r for a dict whose avg_api_response_ms lookup (default 0)
yields r. -/
def calculate_optimal_chunk_size (basePages : Nat) (fileSizeMB : Option ℚ)
    (pageCount : Option Nat) (perf : Option ℚ) : Nat :=
  let base1 :=
    match fileSizeMB, pageCount with
    | some sz, some pc =>
        if sz ≠ 0 ∧ pc ≠ 0 then
          let avg := sz / (pc : ℚ)
          if avg > 1/2 then min basePages 25
          else if avg > 1 then min basePages 15
          else basePages
        else basePages
    | _, _ => basePages
  let base2 :=
    match perf with
    | some rt =>
        if rt > 15000 then min base1 25
        else if rt > 30000 then min base1 15
        else base1
    | none => base1
  max 10 (min base2 45)

/-! ## Merge of chunk results (chunk_processor.py / chunk_processor_optimized.py) -/

/-- A JSON value stored for one field in a chunk's extracted_data: a string
scalar, a list of strings, or null (Python None). -/
inductive FieldVal where
  | str (s : String)
  | arr (xs : List String)
  | null
deriving DecidableEq, Repr

/-- The extracted_data dict of a chunk, as an association list with unique
keys; the empty list models both Python None and the empty dict (their
truthiness and lookups agree). -/
abbrev ChunkData := List (String × FieldVal)

/-- Python `field in data` / `data[field]`: first matching key. -/
def dataGet (d : ChunkData) (field : String) : Option FieldVal :=
  (d.find? (fun p => p.1 == field)).map (fun p => p.2)

/-- The fields of a DocumentChunk row that the merge reads. -/
structure MChunk where
  status : ChunkStatus
  extracted_data : ChunkData
deriving DecidableEq, Repr

/-- The merged-results dict: Python dicts are finite maps, modelled as
functions to Option. -/
abbrev MergedDict := String → Option (List String)

/-- Assignment merged[k] = v. -/
def dsetD (d : MergedDict) (k : String) (v : List String) : MergedDict :=
  fun f => if f = k then some v else d f

/-- First loop of _merge_chunk_results: merged[field] = [] for each requested
field. -/
def initFields (fields : List String) : MergedDict :=
  fields.foldl (fun d f => dsetD d f []) (fun _ => none)

/-- Inner loop body of the collection phase, one chunk and one field:
if field in chunk.extracted_data, extend merged[field] with a list value, or
append a truthy scalar; None and the empty string are falsy and skipped. -/
def mergeFieldStep (c : MChunk) (d : MergedDict) (f : String) : MergedDict :=
  match dataGet c.extracted_data f with
  | some (.arr xs) => dsetD d f ((d f).getD [] ++ xs)
  | some (.str s) => if s ≠ "" then dsetD d f ((d f).getD [] ++ [s]) else d
  | some .null => d
  | none => d

/-- Guard of the collection loop in ChunkProcessor._merge_chunk_results:
`if chunk.extracted_data:`. -/
def chunkGuardPlain (c : MChunk) : Bool :=
  !c.extracted_data.isEmpty

/-- Guard of the collection loop in OptimizedChunkProcessor's merge:
`if chunk.extracted_data and chunk.status == ChunkStatus.COMPLETED:`. -/
def chunkGuardCompleted (c : MChunk) : Bool :=
  !c.extracted_data.isEmpty && (c.status == ChunkStatus.COMPLETED)

/-- Collection phase: for chunk in chunks: if guard: for field in
field_names: mergeFieldStep. -/
def mergeCollect (guard : MChunk → Bool) (chunks : List MChunk)
    (fields : List String) (d : MergedDict) : MergedDict :=
  chunks.foldl (fun d c =>
    if guard c then fields.foldl (mergeFieldStep c) d else d) d

/-- The `seen`-set deduplication loop: keep the first occurrence of every
value, in order. -/
def dedupAux (seen : List String) : List String → List String
  | [] => []
  | x :: rest => if x ∈ seen then dedupAux seen rest else x :: dedupAux (x :: seen) rest

/-- Final loop of _merge_chunk_results: replace every nonempty merged list by
its first-occurrence deduplication (an empty list is left as is). -/
def dedupPass (fields : List String) (d : MergedDict) : MergedDict :=
  fields.foldl (fun d f =>
    if ((d f).getD []) ≠ [] then dsetD d f (dedupAux [] ((d f).getD [])) else d) d

/-- ChunkProcessor._merge_chunk_results (chunk_processor.py lines 416-459):
initialize every requested field to [], collect values from every chunk with
non-empty extracted_data (no status check in this version), then de-duplicate
preserving order. -/
def merge_chunk_results (chunks : List MChunk) (fields : List String) : MergedDict :=
  dedupPass fields (mergeCollect chunkGuardPlain chunks fields (initFields fields))

/-- OptimizedChunkProcessor._merge_chunk_results (chunk_processor_optimized.py
lines 549-583): identical loops, but the collection guard also requires
chunk.status == COMPLETED. -/
def merge_chunk_results_optimized (chunks : List MChunk) (fields : List String) : MergedDict :=
  dedupPass fields (mergeCollect chunkGuardCompleted chunks fields (initFields fields))

/-- The values one chunk contributes to one field in the collection phase: a
list value is taken whole, a truthy scalar becomes a singleton, anything else
contributes nothing. -/
def contribution (c : MChunk) (f : String) : List String :=
  match dataGet c.extracted_data f with
  | some (.arr xs) => xs
  | some (.str s) => if s ≠ "" then [s] else []
  | some .null => []
  | none => []

/-- k concatenated copies of a list (the effect of a field name occurring k
times in the requested-field list). -/
def ncopies (k : Nat) (l : List String) : List String :=
  (List.replicate k l).flatten

/-- What the collection phase gathers for field f across all chunks, each
guarded chunk contributing k copies. -/
def collectedVals (guard : MChunk → Bool) (chunks : List MChunk) (k : Nat)
    (f : String) : List String :=
  chunks.flatMap (fun c => if guard c then ncopies k (contribution c f) else [])

/-- Written from the spec's merge description (spec section 4.4): for one
requested field, collect every value reported by every COMPLETED segment in
segment order, flattening lists and appending scalars, then de-duplicate
keeping first occurrences. -/
def specMergeField (chunks : List MChunk) (f : String) : List String :=
  dedupAux []
    ((chunks.filter (fun c => c.status == ChunkStatus.COMPLETED)).flatMap
      (fun c => contribution c f))

/-! ## RateLimiter (chunk_processor.py lines 23-55)

Wall-clock times are rationals (idealized floats).  wait_if_needed is one
call: `now` is the value of the first time.time(); asyncio.sleep is exact,
so the final time.time() recorded in the list is `now` when no sleep happens
and `now + wait_time` otherwise. -/

/-- The local `self.request_times = [t for t in self.request_times if
current_time - t < 60]` of wait_if_needed. -/
def rlFiltered (times : List ℚ) (now : ℚ) : List ℚ :=
  times.filter (fun t => now - t < 60)

/-- The local `oldest_request = self.request_times[0]` (request_times[0] on
an empty list cannot happen for max_rpm >= 1; headD supplies a default). -/
def rlOldest (times : List ℚ) (now : ℚ) : ℚ :=
  (rlFiltered times now).headD 0

/-- The local `wait_time = 60 - (current_time - oldest_request) + 0.1`. -/
def rlWait (times : List ℚ) (now : ℚ) : ℚ :=
  60 - (now - rlOldest times now) + 1 / 10

/-- The admission timestamp appended by wait_if_needed: when at capacity and
wait_time > 0 the call sleeps, so the second time.time() reads
now + wait_time; otherwise it reads now. -/
def rlAdmit (maxRpm : Nat) (times : List ℚ) (now : ℚ) : ℚ :=
  if maxRpm ≤ (rlFiltered times now).length then
    (if 0 < rlWait times now then now + rlWait times now else now)
  else now

/-- RateLimiter.wait_if_needed: filter out entries older than 60 seconds,
sleep past the oldest retained entry plus a 0.1s buffer when at capacity,
then append the admission timestamp.  Returns (new request_times list,
admission timestamp). -/
def wait_if_needed (maxRpm : Nat) (times : List ℚ) (now : ℚ) : List ℚ × ℚ :=
  (rlFiltered times now ++ [rlAdmit maxRpm times now], rlAdmit maxRpm times now)

/-- A sequence of sequential wait_if_needed calls on one RateLimiter: the
i-th call arrives delay_i seconds (delay_i >= 0) after the previous call's
admission returned, the first counted from `now`.  Returns the admission
timestamps in order. -/
def runRL (maxRpm : Nat) (times : List ℚ) (now : ℚ) : List ℚ → List ℚ
  | [] => []
  | d :: ds =>
      let r := wait_if_needed maxRpm times (now + d)
      r.2 :: runRL maxRpm r.1 r.2 ds

/-- All admission timestamps of a fresh RateLimiter (request_times = [],
last reference time 0) across a sequence of call delays. -/
def admittedTimes (maxRpm : Nat) (delays : List ℚ) : List ℚ :=
  runRL maxRpm [] 0 delays

/-- Membership of a timestamp in the trailing 60-second window ending at τ. -/
def inWindow (τ t : ℚ) : Bool :=
  decide (τ - 60 < t) && decide (t ≤ τ)

/-! ## Extraction gateway: SimpleLandingAIService.extract_document
(simple_landing_ai_service.py lines 507-785), modelling the live-SDK branch
(`parse is not None`).  The SDK, the OpenAI client and the clock are external
collaborators, captured in an environment record. -/

/-- A parsed document returned by the SDK: markdown, the optional structured
extraction (the model_dump dict of the dynamic model), and the chunk
telemetry texts. -/
structure ParsedDoc where
  markdown : String
  extraction : Option ChunkData
  chunkTexts : List String
deriving Repr

/-- Outcome of one SDK parse call: it raises, or returns a (possibly empty)
list of parsed documents. -/
inductive SdkParse where
  | raises
  | returns (docs : List ParsedDoc)
deriving Repr

/-- The external collaborators of one extract_document call: the outcome of
parse with the extraction model, the outcome of the markdown-only parse
(assumed stable across the retries within one call), whether the OpenAI
client and its API key are available, and the JSON object the OpenAI chat
call yields for a requested field list (none when that call raises
internally). -/
structure ExtractEnv where
  parseWithModel : SdkParse
  parseMarkdownOnly : SdkParse
  openaiAvailable : Bool
  openaiRaw : List String → Option ChunkData

/-- Matches a pattern against the head of a character list. -/
def charListHeadMatch : List Char → List Char → Bool
  | [], _ => true
  | _ :: _, [] => false
  | p :: ps, c :: cs => p == c && charListHeadMatch ps cs

/-- Python `pat in s` over character lists: substring containment. -/
def charListHasSub (pat : List Char) : List Char → Bool
  | [] => pat.isEmpty
  | c :: cs => charListHeadMatch pat (c :: cs) || charListHasSub pat cs

/-- Python `pat in s` on strings. -/
def strContains (s pat : String) : Bool :=
  charListHasSub pat.toList s.toList

/-- The multi_value_keywords list of _extract_fields_using_openai. -/
def multi_value_keywords : List String :=
  ["id", "number", "code", "reference", "date", "email", "phone",
   "address", "name", "amount", "item", "line", "entry", "record"]

/-- `any(keyword in field_lower for keyword in multi_value_keywords)`. -/
def isMultiValueField (field : String) : Bool :=
  multi_value_keywords.any (fun k => strContains field.toLower k)

/-- `{field: None for field in fields}`. -/
def allNull (fields : List String) : ChunkData :=
  fields.map (fun f => (f, FieldVal.null))

/-- SimpleLandingAIService._extract_fields_using_openai (lines 211-294):
returns all-null when the OpenAI client is unavailable; otherwise runs the
chat call (none models its try-block raising, answered by the except-clause
with all-null) and fills every missing requested field with an empty array
for multi-value field names and null otherwise. -/
def extractFieldsUsingOpenai (env : ExtractEnv) (fields : List String) : ChunkData :=
  if env.openaiAvailable then
    match env.openaiRaw fields with
    | some data =>
        data ++ (fields.filter (fun f => (dataGet data f).isNone)).map
          (fun f => (f, if isMultiValueField f then FieldVal.arr [] else FieldVal.null))
    | none => allNull fields
  else allNull fields

/-- The ExtractionResult fields the claims observe: the data dict, the
markdown, and the metadata extraction_method tag (none when the metadata
argument was not passed). -/
structure ExtractRes where
  data : ChunkData
  markdown : String
  method : Option String
deriving DecidableEq, Repr

/-- The try-block of extract_document (lines 552-753).  customNames are the
names of the custom_fields argument. -/
def extractBody (env : ExtractEnv) (selected : List String)
    (customNames : List String) : Except String ExtractRes :=
  match env.parseWithModel with
  | .raises => .error "parse raised"
  | .returns [] =>
      match env.parseMarkdownOnly with
      | .raises => .error "parse raised"
      | .returns [] => .error "No results from parse"
      | .returns (d :: _) =>
          if d.markdown ≠ "" ∧ env.openaiAvailable then
            .ok { data := extractFieldsUsingOpenai env (selected ++ customNames)
                  markdown := d.markdown
                  method := some "OPENAI_FALLBACK" }
          else
            .ok { data := allNull (selected ++ customNames)
                  markdown := d.markdown
                  method := some "FAILED" }
  | .returns (d :: _) =>
      let extracted := (d.extraction).getD []
      let nonNull := extracted.filter
        (fun p => !(p.2 == FieldVal.null) && !(p.1 == "full_content"))
      let needsOpenai : Bool := extracted.isEmpty || nonNull.isEmpty
      let data2 :=
        if needsOpenai ∧ d.markdown ≠ "" then
          extractFieldsUsingOpenai env (selected ++ customNames)
        else extracted
      let method : String :=
        if needsOpenai ∧ d.markdown ≠ "" then "OPENAI_FALLBACK" else "LANDING_AI_SDK"
      .ok { data := (selected ++ customNames).map
              (fun f => (f, (dataGet data2 f).getD FieldVal.null))
            ++ [("chunks", FieldVal.arr d.chunkTexts)]
            markdown := d.markdown
            method := some method }

/-- The except-clause of extract_document (lines 754-785): one more
markdown-only parse (its own failure swallowed by the inner bare except),
an all-null data dict over the *selected* fields only, and no metadata. -/
def extractHandler (env : ExtractEnv) (selected : List String)
    (errMsg : String) : ExtractRes :=
  match env.parseMarkdownOnly with
  | .raises =>
      { data := allNull selected
        markdown := "Extraction failed: " ++ errMsg
        method := none }
  | .returns [] =>
      { data := allNull selected
        markdown := "Extraction failed: " ++ errMsg
        method := none }
  | .returns (d :: _) =>
      { data := allNull selected
        markdown := if d.markdown ≠ "" then d.markdown
                    else "Extraction failed: " ++ errMsg
        method := none }

/-- SimpleLandingAIService.extract_document: the try/except composition.
Total: every error of the body is absorbed by the handler. -/
def extract_document (env : ExtractEnv) (selected : List String)
    (customNames : List String) : ExtractRes :=
  match extractBody env selected customNames with
  | .ok r => r
  | .error e => extractHandler env selected e

/-! ## ChunkProcessor.process_document_chunks (chunk_processor.py lines
80-171), with _process_single_chunk (lines 173-292) collapsed to its
observable per-chunk outcome, and the retry endpoint
(api/endpoints/chunks.py lines 218-260). -/

/-- The DocumentChunk columns this state machine reads and writes (the
extracted-data columns are covered by the merge model above). -/
structure PChunk where
  chunk_number : Nat
  page_count : Nat
  status : ChunkStatus
  error_message : Option String
deriving DecidableEq, Repr

/-- The observable outcome of _process_single_chunk on one chunk: `ok` -
extraction produced data (chunk COMPLETED, data returned to the loop);
`empty` - extraction returned but with no data (chunk FAILED with error
message, empty dict returned to the loop); `raises` - every retry attempt
raised (chunk FAILED with the error recorded, the exception propagates to
the loop, which logs it and continues with the next chunk). -/
inductive COutcome where
  | ok
  | empty
  | raises
deriving DecidableEq, Repr

/-- The ProcessingMetrics columns _update_metrics writes (the latency
averages are timing telemetry and are not modelled). -/
structure PMetrics where
  completed_chunks : Nat
  failed_chunks : Nat
  processed_pages : Nat
  is_complete : Bool
  has_failures : Bool
deriving DecidableEq, Repr

/-- ChunkProcessor._update_metrics (lines 344-382): recount COMPLETED and
FAILED chunks over all chunks of the document and refresh the flags. -/
def update_metrics (chunks : List PChunk) (totalChunks : Nat) : PMetrics :=
  { completed_chunks := (chunks.filter (fun c => c.status == ChunkStatus.COMPLETED)).length
    failed_chunks := (chunks.filter (fun c => c.status == ChunkStatus.FAILED)).length
    processed_pages := ((chunks.filter (fun c => c.status == ChunkStatus.COMPLETED)).map
      (fun c => c.page_count)).sum
    is_complete :=
      (chunks.filter (fun c => c.status == ChunkStatus.COMPLETED)).length == totalChunks
    has_failures :=
      decide (0 < (chunks.filter (fun c => c.status == ChunkStatus.FAILED)).length) }

/-- The effect of _process_single_chunk on the chunk row (the transient
PROCESSING status set on entry is overwritten before the loop observes
it). -/
def applyOutcome (c : PChunk) (o : COutcome) : PChunk :=
  match o with
  | .ok => { c with status := ChunkStatus.COMPLETED }
  | .empty =>
      { c with
        status := ChunkStatus.FAILED
        error_message := some "No data extracted" }
  | .raises =>
      { c with
        status := ChunkStatus.FAILED
        error_message := some "extraction error" }

/-- The chunk loop of process_document_chunks (lines 121-139): on a raising
chunk the except-clause just continues - no results append, no progress or
metrics update; otherwise the result is appended, document.completed_chunks
is set to len(results), and _update_metrics recounts over all chunks of the
document (the ones already processed, this one, and the still-unprocessed
rest). -/
def chunkLoop (totalChunks : Nat) (done : List PChunk) (m : PMetrics)
    (results : Nat) : List (PChunk × COutcome) → List PChunk × PMetrics × Nat
  | [] => (done, m, results)
  | (c, o) :: todo =>
      match o with
      | .raises =>
          chunkLoop totalChunks (done ++ [applyOutcome c .raises]) m results todo
      | .ok =>
          chunkLoop totalChunks (done ++ [applyOutcome c .ok])
            (update_metrics (done ++ [applyOutcome c .ok] ++ todo.map Prod.fst)
              totalChunks)
            (results + 1) todo
      | .empty =>
          chunkLoop totalChunks (done ++ [applyOutcome c .empty])
            (update_metrics (done ++ [applyOutcome c .empty] ++ todo.map Prod.fst)
              totalChunks)
            (results + 1) todo

/-- The document-level observable state after process_document_chunks. -/
structure DocResult where
  docStatus : DocumentStatus
  errorMessage : Option String
  chunks : List PChunk
  metrics : PMetrics
  completedChunks : Nat
deriving DecidableEq, Repr

/-- ChunkProcessor.process_document_chunks: raises ValueError when no chunks
exist (caught by its own except-clause, which marks the document FAILED with
the message and re-raises); otherwise drives every chunk through the loop,
merges (covered by the merge model) and marks the document EXTRACTED -
segment failures never change that.  m0 is the metrics row created at
chunking time. -/
def process_document_chunks (chunks : List (PChunk × COutcome))
    (m0 : PMetrics) : DocResult :=
  if chunks.isEmpty then
    { docStatus := DocumentStatus.FAILED
      errorMessage := some "No chunks found"
      chunks := []
      metrics := m0
      completedChunks := 0 }
  else
    { docStatus := DocumentStatus.EXTRACTED
      errorMessage := none
      chunks := (chunkLoop chunks.length [] m0 0 chunks).1
      metrics := (chunkLoop chunks.length [] m0 0 chunks).2.1
      completedChunks := (chunkLoop chunks.length [] m0 0 chunks).2.2 }

/-- retry_chunk_processing (chunks.py lines 218-260): HTTP 400 when the
chunk is not FAILED or RETRYING, leaving it unchanged; otherwise reset the
chunk to PENDING and clear its error message. -/
def retry_chunk_processing (c : PChunk) : Except Nat PChunk :=
  if c.status = ChunkStatus.FAILED ∨ c.status = ChunkStatus.RETRYING then
    Except.ok { c with status := ChunkStatus.PENDING, error_message := none }
  else
    Except.error 400

end Apex

namespace Apex

/-! ## Theorems -/

/-! Sanity examples for the segmenter (concrete evaluations used while
developing; kept as anonymous examples). -/

example : split_pdf_into_chunks 120 40 =
    [⟨1, 1, 40, 40⟩, ⟨2, 41, 80, 40⟩, ⟨3, 81, 120, 40⟩] := by decide

example : split_pdf_into_chunks 101 40 =
    [⟨1, 1, 40, 40⟩, ⟨2, 41, 80, 40⟩, ⟨3, 81, 101, 21⟩] := by decide

example : should_chunk_document (.pdf 120 (80 * 1024 * 1024)) = (true, 120, 80) := by
  norm_num [should_chunk_document, shouldChunkBody, bytesToMB]

/-! ### Segment partition (C1) -/

/-- The number of chunks is the ceiling of totalPages / chunkSize. -/
theorem length_split_pdf (P S : Nat) :
    (split_pdf_into_chunks P S).length = (P + S - 1) / S := by
  simp [split_pdf_into_chunks, pyRange]

/-- Closed form for the i-th chunk produced by _split_pdf_into_chunks. -/
theorem split_pdf_get (P S i : Nat) (h : i < (split_pdf_into_chunks P S).length) :
    (split_pdf_into_chunks P S).get ⟨i, h⟩ =
      { chunk_number := i + 1
        start_page := i * S + 1
        end_page := min (i * S + S) P
        page_count := min (i * S + S) P - i * S } := by
  have h' : i < (P + S - 1) / S := by rwa [length_split_pdf] at h
  simp [split_pdf_into_chunks, pyRange, List.get_eq_getElem]

/-- An index is a valid chunk index iff its 0-based first page is below the
total page count. -/
theorem lt_numChunks_iff {P S i : Nat} (hS : 1 ≤ S) (hP : 1 ≤ P) :
    i < (P + S - 1) / S ↔ i * S < P := by
  have : i < (P + S - 1) / S ↔ i + 1 ≤ (P + S - 1) / S := Iff.rfl
  rw [this, Nat.le_div_iff_mul_le (by omega : 0 < S), Nat.add_mul]
  omega

/-- With a positive remainder, the chunk count is pages / size + 1. -/
theorem numChunks_of_mod_ne {P S : Nat} (hS : 1 ≤ S) (hmod : P % S ≠ 0) :
    (P + S - 1) / S = P / S + 1 := by
  have hS0 : 0 < S := hS
  have hd := Nat.div_add_mod P S
  have hlt : P % S < S := Nat.mod_lt P hS0
  have hz : (P % S - 1) / S = 0 := Nat.div_eq_of_lt (by omega)
  have h1 : P + S - 1 = S * (P / S) + (P % S - 1 + S) := by omega
  rw [h1, Nat.mul_add_div hS0, Nat.add_div_right _ hS0, hz]

/-- C1: for a document of P >= 1 pages split with effective segment size
S >= 1 and zero overlap, _split_pdf_into_chunks produces a nonempty list of
segments whose chunk numbers are the contiguous series 1..N, whose first
segment starts at page 1, whose last segment ends at page P, in which each
segment starts right after its predecessor ends, every page of [1, P] is
covered by exactly one segment, every segment but the last spans exactly S
pages, and the last spans P mod S pages when that remainder is nonzero; in
particular 120 pages with size 40 yield the three segments 1-40, 41-80,
81-120. -/
theorem createSegments_partition (P S : Nat) (hP : 1 ≤ P) (hS : 1 ≤ S) :
    0 < (split_pdf_into_chunks P S).length ∧
    (∀ i (hi : i < (split_pdf_into_chunks P S).length),
        ((split_pdf_into_chunks P S).get ⟨i, hi⟩).chunk_number = i + 1) ∧
    (∀ hi : 0 < (split_pdf_into_chunks P S).length,
        ((split_pdf_into_chunks P S).get ⟨0, hi⟩).start_page = 1) ∧
    (∀ i (hi : i < (split_pdf_into_chunks P S).length),
        i + 1 = (split_pdf_into_chunks P S).length →
        ((split_pdf_into_chunks P S).get ⟨i, hi⟩).end_page = P) ∧
    (∀ i (hi : i + 1 < (split_pdf_into_chunks P S).length),
        ((split_pdf_into_chunks P S).get ⟨i + 1, hi⟩).start_page =
          ((split_pdf_into_chunks P S).get ⟨i, Nat.lt_of_succ_lt hi⟩).end_page + 1) ∧
    (∀ page, 1 ≤ page → page ≤ P →
        ∃ i, ∃ hi : i < (split_pdf_into_chunks P S).length,
          ((split_pdf_into_chunks P S).get ⟨i, hi⟩).start_page ≤ page ∧
          page ≤ ((split_pdf_into_chunks P S).get ⟨i, hi⟩).end_page ∧
          ∀ j (hj : j < (split_pdf_into_chunks P S).length),
            ((split_pdf_into_chunks P S).get ⟨j, hj⟩).start_page ≤ page →
            page ≤ ((split_pdf_into_chunks P S).get ⟨j, hj⟩).end_page → j = i) ∧
    (∀ i (hi : i + 1 < (split_pdf_into_chunks P S).length),
        ((split_pdf_into_chunks P S).get ⟨i, Nat.lt_of_succ_lt hi⟩).page_count = S) ∧
    (P % S ≠ 0 →
      ∀ i (hi : i < (split_pdf_into_chunks P S).length),
        i + 1 = (split_pdf_into_chunks P S).length →
        ((split_pdf_into_chunks P S).get ⟨i, hi⟩).page_count = P % S) ∧
    split_pdf_into_chunks 120 40 =
      [⟨1, 1, 40, 40⟩, ⟨2, 41, 80, 40⟩, ⟨3, 81, 120, 40⟩] := by
  have hS0 : 0 < S := hS
  have hlen : (split_pdf_into_chunks P S).length = (P + S - 1) / S := length_split_pdf P S
  have hpos : 0 < (split_pdf_into_chunks P S).length := by
    rw [hlen, lt_numChunks_iff hS hP]; omega
  refine ⟨hpos, ?_, ?_, ?_, ?_, ?_, ?_, ?_, by decide⟩
  · intro i hi; rw [split_pdf_get]
  · intro hi; rw [split_pdf_get]; dsimp only; omega
  · intro i hi hlast
    rw [split_pdf_get]; dsimp only
    have hub : ¬ (i + 1 < (P + S - 1) / S) := by rw [← hlen]; omega
    rw [lt_numChunks_iff hS hP] at hub
    have hadd : (i + 1) * S = i * S + S := by rw [Nat.add_mul]; omega
    omega
  · intro i hi
    have hi' : i < (split_pdf_into_chunks P S).length := Nat.lt_of_succ_lt hi
    rw [split_pdf_get, split_pdf_get]; dsimp only
    have h1 : i + 1 < (P + S - 1) / S := by rw [← hlen]; exact hi
    rw [lt_numChunks_iff hS hP] at h1
    have hadd : (i + 1) * S = i * S + S := by rw [Nat.add_mul]; omega
    omega
  · intro page hp1 hpP
    have hlow : (page - 1) / S * S ≤ page - 1 := Nat.div_mul_le_self _ _
    have hhigh : page - 1 < (page - 1) / S * S + S := Nat.lt_div_mul_add hS0
    refine ⟨(page - 1) / S, ?_, ?_⟩
    · rw [hlen, lt_numChunks_iff hS hP]
      omega
    rw [split_pdf_get]; dsimp only
    refine ⟨by omega, by omega, ?_⟩
    intro j hj hjs hje
    rw [split_pdf_get] at hjs hje
    dsimp only at hjs hje
    have hje' : page ≤ j * S + S := by omega
    have hadd : (j + 1) * S = j * S + S := by rw [Nat.add_mul]; omega
    have : (page - 1) / S = j := Nat.div_eq_of_lt_le (by omega) (by omega)
    omega
  · intro i hi
    have hi' : i < (split_pdf_into_chunks P S).length := Nat.lt_of_succ_lt hi
    rw [split_pdf_get]; dsimp only
    have h1 : i + 1 < (P + S - 1) / S := by rw [← hlen]; exact hi
    rw [lt_numChunks_iff hS hP] at h1
    have hadd : (i + 1) * S = i * S + S := by rw [Nat.add_mul]; omega
    omega
  · intro hmod i hi hlast
    rw [split_pdf_get]; dsimp only
    have hN : (split_pdf_into_chunks P S).length = P / S + 1 := by
      rw [hlen, numChunks_of_mod_ne hS hmod]
    have hieq : i = P / S := by omega
    subst hieq
    have hd := Nat.div_add_mod P S
    rw [Nat.mul_comm] at hd
    have hlt : P % S < S := Nat.mod_lt P hS0
    omega

/-- Witness for C1 at the spec's example: 120 pages, effective size 40. -/
theorem createSegments_partition_witness :
    split_pdf_into_chunks 120 40 =
      [⟨1, 1, 40, 40⟩, ⟨2, 41, 80, 40⟩, ⟨3, 81, 120, 40⟩] :=
  (createSegments_partition 120 40 (by norm_num) (by norm_num)).2.2.2.2.2.2.2.2

/-! ### Merge lemmas (C2, C10) -/

theorem dsetD_same (d : MergedDict) (k : String) (v : List String) :
    dsetD d k v k = some v := by
  simp [dsetD]

theorem dsetD_other (d : MergedDict) (k f : String) (v : List String) (h : f ≠ k) :
    dsetD d k v f = d f := by
  simp [dsetD, h]

theorem initFields_loop (fields : List String) (d : MergedDict) (f : String) :
    (fields.foldl (fun d g => dsetD d g []) d) f =
      if f ∈ fields then some [] else d f := by
  induction fields generalizing d with
  | nil => simp
  | cons g rest ih =>
    simp only [List.foldl_cons, ih, List.mem_cons]
    by_cases hf : f ∈ rest
    · simp [hf]
    · by_cases hg : f = g
      · simp [hf, hg, dsetD_same]
      · simp [hf, hg, dsetD_other _ _ _ _ hg]

theorem initFields_get (fields : List String) (f : String) :
    initFields fields f = if f ∈ fields then some [] else none := by
  rw [initFields, initFields_loop]

theorem mergeFieldStep_other (c : MChunk) (d : MergedDict) (g f : String)
    (h : f ≠ g) : mergeFieldStep c d g f = d f := by
  unfold mergeFieldStep
  cases hv : dataGet c.extracted_data g with
  | none => rfl
  | some v =>
    cases v with
    | arr xs => exact dsetD_other _ _ _ _ h
    | str s =>
      by_cases hs : s ≠ ""
      · simp only [if_pos hs]; exact dsetD_other _ _ _ _ h
      · simp only [if_neg hs]
    | null => rfl

theorem ncopies_zero (l : List String) : ncopies 0 l = [] := rfl

theorem ncopies_succ (k : Nat) (l : List String) :
    ncopies (k + 1) l = l ++ ncopies k l := by
  simp [ncopies, List.replicate_succ]

theorem ncopies_one (l : List String) : ncopies 1 l = l := by
  simp [ncopies]

theorem ncopies_nil (k : Nat) : ncopies k [] = [] := by
  simp [ncopies]

theorem mem_ncopies {x : String} {k : Nat} {l : List String}
    (h : x ∈ ncopies k l) : x ∈ l := by
  induction k with
  | zero => simp [ncopies_zero] at h
  | succ k ih =>
    rw [ncopies_succ, List.mem_append] at h
    exact h.elim id ih

/-- The inner field loop appends, at field f, one copy of the chunk's
contribution per occurrence of f in the requested-field list. -/
theorem mergeFields_loop (c : MChunk) (fields : List String) (d : MergedDict)
    (f : String) (old : List String) (hd : d f = some old) :
    (fields.foldl (mergeFieldStep c) d) f =
      some (old ++ ncopies (fields.count f) (contribution c f)) := by
  induction fields generalizing d old with
  | nil => simp [hd, ncopies_zero]
  | cons g rest ih =>
    simp only [List.foldl_cons]
    by_cases hg : g = f
    · subst hg
      have hstep : mergeFieldStep c d g g = some (old ++ contribution c g) := by
        unfold mergeFieldStep contribution
        cases hv : dataGet c.extracted_data g with
        | none => simpa using hd
        | some v =>
          cases v with
          | arr xs => simp [dsetD_same, hd]
          | str s =>
            by_cases hs : s ≠ ""
            · simp [if_pos hs, dsetD_same, hd]
            · simp [if_neg hs, hs, hd]
          | null => simpa using hd
      rw [ih _ _ hstep, List.count_cons_self, ncopies_succ]
      simp
    · have hgf : f ≠ g := fun h => hg h.symm
      have hstep : mergeFieldStep c d g f = some old := by
        rw [mergeFieldStep_other c d g f hgf]; exact hd
      rw [ih _ _ hstep, List.count_cons_of_ne (fun h => hg h.symm) rest]

/-- Fields outside the requested list are never written by the inner loop. -/
theorem mergeFields_loop_notMem (c : MChunk) (fields : List String)
    (d : MergedDict) (f : String) (h : f ∉ fields) :
    (fields.foldl (mergeFieldStep c) d) f = d f := by
  induction fields generalizing d with
  | nil => rfl
  | cons g rest ih =>
    simp only [List.mem_cons, not_or] at h
    simp only [List.foldl_cons]
    rw [ih _ h.2, mergeFieldStep_other c d g f h.1]

/-- The collection loop over chunks, at a requested field f, accumulates the
guarded contributions in chunk order. -/
theorem mergeCollect_get (guard : MChunk → Bool) (chunks : List MChunk)
    (fields : List String) (d : MergedDict) (f : String) (old : List String)
    (hd : d f = some old) :
    mergeCollect guard chunks fields d f =
      some (old ++ collectedVals guard chunks (fields.count f) f) := by
  induction chunks generalizing d old with
  | nil => simp [mergeCollect, collectedVals, hd]
  | cons c rest ih =>
    simp only [mergeCollect, List.foldl_cons] at *
    by_cases hc : guard c
    · rw [if_pos hc]
      have hstep := mergeFields_loop c fields d f old hd
      rw [ih _ _ hstep]
      simp [collectedVals, hc, List.append_assoc]
    · rw [if_neg hc, ih _ _ hd]
      simp [collectedVals, hc]

theorem mergeCollect_notMem (guard : MChunk → Bool) (chunks : List MChunk)
    (fields : List String) (d : MergedDict) (f : String) (h : f ∉ fields) :
    mergeCollect guard chunks fields d f = d f := by
  induction chunks generalizing d with
  | nil => rfl
  | cons c rest ih =>
    simp only [mergeCollect, List.foldl_cons] at *
    by_cases hc : guard c
    · rw [if_pos hc, ih, mergeFields_loop_notMem c fields d f h]
    · rw [if_neg hc, ih]

theorem dedupAux_congr (seen₁ seen₂ : List String)
    (h : ∀ x, x ∈ seen₁ ↔ x ∈ seen₂) (l : List String) :
    dedupAux seen₁ l = dedupAux seen₂ l := by
  induction l generalizing seen₁ seen₂ with
  | nil => rfl
  | cons x rest ih =>
    simp only [dedupAux]
    by_cases hx : x ∈ seen₁
    · rw [if_pos hx, if_pos ((h x).mp hx), ih _ _ h]
    · rw [if_neg hx, if_neg (fun hc => hx ((h x).mpr hc))]
      congr 1
      refine ih _ _ (fun y => ?_)
      simp only [List.mem_cons]
      exact or_congr Iff.rfl (h y)

theorem dedupAux_append (seen xs ys : List String) :
    dedupAux seen (xs ++ ys) = dedupAux seen xs ++ dedupAux (xs ++ seen) ys := by
  induction xs generalizing seen with
  | nil => rfl
  | cons x rest ih =>
    by_cases hx : x ∈ seen
    · have h1 : dedupAux seen (x :: rest ++ ys) = dedupAux seen (rest ++ ys) := by
        simp only [List.cons_append, dedupAux, List.append_eq, if_pos hx]
      have h2 : dedupAux seen (x :: rest) = dedupAux seen rest := by
        simp only [dedupAux, if_pos hx]
      rw [h1, h2, ih]
      congr 1
      refine dedupAux_congr _ _ (fun y => ?_) ys
      constructor
      · intro hy; exact List.mem_cons_of_mem x hy
      · intro hy
        rcases List.mem_cons.mp hy with rfl | hy
        · exact List.mem_append.mpr (Or.inr hx)
        · exact hy
    · have h1 : dedupAux seen (x :: rest ++ ys) = x :: dedupAux (x :: seen) (rest ++ ys) := by
        simp only [List.cons_append, dedupAux, List.append_eq, if_neg hx]
      have h2 : dedupAux seen (x :: rest) = x :: dedupAux (x :: seen) rest := by
        simp only [dedupAux, if_neg hx]
      rw [h1, h2, ih, List.cons_append]
      congr 2
      refine dedupAux_congr _ _ (fun y => ?_) ys
      simp only [List.cons_append, List.mem_append, List.mem_cons]
      tauto

theorem dedupAux_of_sub (seen xs : List String) (h : ∀ x ∈ xs, x ∈ seen) :
    dedupAux seen xs = [] := by
  induction xs with
  | nil => rfl
  | cons x rest ih =>
    simp only [dedupAux, if_pos (h x (List.mem_cons_self x rest))]
    exact ih (fun y hy => h y (List.mem_cons_of_mem x hy))

theorem dedupAux_append_of_sub (seen xs ys : List String)
    (h : ∀ x ∈ xs, x ∈ seen) :
    dedupAux seen (xs ++ ys) = dedupAux seen ys := by
  rw [dedupAux_append, dedupAux_of_sub seen xs h, List.nil_append]
  refine dedupAux_congr _ _ (fun y => ?_) ys
  simp only [List.mem_append]
  exact ⟨fun hy => hy.elim (fun hx => h y hx) id, Or.inr⟩

theorem dedupAux_not_mem_seen (seen l : List String) (x : String)
    (hx : x ∈ dedupAux seen l) : x ∉ seen := by
  induction l generalizing seen with
  | nil => simp [dedupAux] at hx
  | cons y rest ih =>
    simp only [dedupAux] at hx
    by_cases hy : y ∈ seen
    · rw [if_pos hy] at hx; exact ih seen hx
    · rw [if_neg hy] at hx
      rcases List.mem_cons.mp hx with rfl | hx
      · exact hy
      · intro hc
        exact ih (y :: seen) hx (List.mem_cons_of_mem y hc)

theorem dedupAux_nodup (seen l : List String) : (dedupAux seen l).Nodup := by
  induction l generalizing seen with
  | nil => exact List.nodup_nil
  | cons x rest ih =>
    simp only [dedupAux]
    by_cases hx : x ∈ seen
    · rw [if_pos hx]; exact ih seen
    · rw [if_neg hx]
      refine List.Nodup.cons ?_ (ih (x :: seen))
      intro hc
      exact dedupAux_not_mem_seen _ _ _ hc (List.mem_cons_self x seen)

theorem dedupAux_of_nodup (seen l : List String) (hl : l.Nodup)
    (hs : ∀ x ∈ l, x ∉ seen) : dedupAux seen l = l := by
  induction l generalizing seen with
  | nil => rfl
  | cons x rest ih =>
    simp only [dedupAux, if_neg (hs x (List.mem_cons_self x rest))]
    congr 1
    refine ih (x :: seen) (List.Nodup.of_cons hl) (fun y hy => ?_)
    simp only [List.mem_cons, not_or]
    exact ⟨fun hc => (List.nodup_cons.mp hl).1 (hc ▸ hy),
           hs y (List.mem_cons_of_mem x hy)⟩

theorem dedupAux_idem (l : List String) :
    dedupAux [] (dedupAux [] l) = dedupAux [] l :=
  dedupAux_of_nodup [] _ (dedupAux_nodup [] l) (fun _ _ => List.not_mem_nil _)

theorem dedupAux_ne_nil (l : List String) (h : l ≠ []) : dedupAux [] l ≠ [] := by
  cases l with
  | nil => exact absurd rfl h
  | cons x rest =>
    simp [dedupAux]

/-- The dedup pass, at a field currently bound in the dict, replaces a
nonempty value by its deduplication and leaves an empty one unchanged. -/
theorem dedupPass_get (fields : List String) (d : MergedDict) (f : String)
    (vs : List String) (hd : d f = some vs) :
    dedupPass fields d f =
      some (if f ∈ fields ∧ vs ≠ [] then dedupAux [] vs else vs) := by
  induction fields generalizing d vs with
  | nil => simpa [dedupPass] using hd
  | cons g rest ih =>
    simp only [dedupPass, List.foldl_cons] at *
    by_cases hg : g = f
    · subst hg
      by_cases hvs : vs ≠ []
      · have hstep : (if ((d g).getD []) ≠ [] then dsetD d g (dedupAux [] ((d g).getD [])) else d) g
            = some (dedupAux [] vs) := by
          rw [hd]
          simp only [Option.getD_some, if_pos hvs]
          exact dsetD_same _ _ _
        rw [ih _ _ hstep]
        by_cases hr : g ∈ rest
        · simp [hr, hvs, dedupAux_ne_nil vs hvs, dedupAux_idem]
        · simp [hr, hvs]
      · push_neg at hvs
        subst hvs
        have hstep : (if ((d g).getD []) ≠ [] then dsetD d g (dedupAux [] ((d g).getD [])) else d) g
            = some [] := by
          rw [hd]; simp [hd]
        rw [ih _ _ hstep]
        simp
    · have hgf : f ≠ g := fun h => hg h.symm
      have hstep : (if ((d g).getD []) ≠ [] then dsetD d g (dedupAux [] ((d g).getD [])) else d) f
          = some vs := by
        by_cases hgv : ((d g).getD []) ≠ []
        · rw [if_pos hgv, dsetD_other _ _ _ _ hgf]; exact hd
        · rw [if_neg hgv]; exact hd
      rw [ih _ _ hstep]
      simp only [List.mem_cons]
      by_cases hr : f ∈ rest
      · simp [hr, hgf]
      · simp [hr, hgf]

theorem dedupPass_notMem (fields : List String) (d : MergedDict) (f : String)
    (h : f ∉ fields) : dedupPass fields d f = d f := by
  induction fields generalizing d with
  | nil => rfl
  | cons g rest ih =>
    simp only [List.mem_cons, not_or] at h
    simp only [dedupPass, List.foldl_cons] at *
    rw [ih _ h.2]
    by_cases hgv : ((d g).getD []) ≠ []
    · rw [if_pos hgv, dsetD_other _ _ _ _ h.1]
    · rw [if_neg hgv]

/-- Deduplicating k+1 copies of a list followed by a tail is the same as
deduplicating one copy followed by that tail. -/
theorem dedupAux_ncopies_absorb (seen : List String) (k : Nat) (l rest : List String) :
    dedupAux seen (ncopies (k + 1) l ++ rest) = dedupAux seen (l ++ rest) := by
  rw [ncopies_succ, List.append_assoc, dedupAux_append,
      dedupAux_append_of_sub _ _ rest
        (fun x hx => List.mem_append_left seen (mem_ncopies hx)),
      ← dedupAux_append]

/-- Duplicate occurrences of a field name in the requested list do not change
the deduplicated collection. -/
theorem dedupAux_collected (guard : MChunk → Bool) (f : String) (k : Nat)
    (chunks : List MChunk) (seen : List String) :
    dedupAux seen (collectedVals guard chunks (k + 1) f) =
      dedupAux seen (collectedVals guard chunks 1 f) := by
  induction chunks generalizing seen with
  | nil => rfl
  | cons c rest ih =>
    by_cases hc : guard c
    · have hl : collectedVals guard (c :: rest) (k + 1) f
          = ncopies (k + 1) (contribution c f) ++ collectedVals guard rest (k + 1) f := by
        simp [collectedVals, hc]
      have hr : collectedVals guard (c :: rest) 1 f
          = ncopies 1 (contribution c f) ++ collectedVals guard rest 1 f := by
        simp [collectedVals, hc]
      rw [hl, hr, dedupAux_ncopies_absorb, ncopies_one,
          dedupAux_append, dedupAux_append, ih]
    · have hl : collectedVals guard (c :: rest) (k + 1) f
          = collectedVals guard rest (k + 1) f := by
        simp [collectedVals, hc]
      have hr : collectedVals guard (c :: rest) 1 f = collectedVals guard rest 1 f := by
        simp [collectedVals, hc]
      rw [hl, hr, ih]

/-- A chunk with empty extracted_data contributes nothing. -/
theorem contribution_of_empty (c : MChunk) (f : String)
    (h : c.extracted_data = []) : contribution c f = [] := by
  simp [contribution, dataGet, h]

/-- The optimized guard collects exactly the contributions of the COMPLETED
chunks, in order. -/
theorem collectedVals_one_completed (chunks : List MChunk) (f : String) :
    collectedVals chunkGuardCompleted chunks 1 f =
      (chunks.filter (fun c => c.status == ChunkStatus.COMPLETED)).flatMap
        (fun c => contribution c f) := by
  induction chunks with
  | nil => rfl
  | cons c rest ih =>
    simp only [collectedVals, List.flatMap_cons, List.filter_cons] at *
    by_cases hs : c.status = ChunkStatus.COMPLETED
    · by_cases hd : c.extracted_data.isEmpty
      · have hguard : chunkGuardCompleted c = false := by
          simp [chunkGuardCompleted, hd]
        have hcon : contribution c f = [] :=
          contribution_of_empty c f (List.isEmpty_iff.mp hd)
        simp [hguard, hs, hcon, ih]
      · have hguard : chunkGuardCompleted c = true := by
          simp [chunkGuardCompleted, hd, hs]
        simp only [ncopies_one] at ih ⊢
        simp [hguard, hs, ih]
    · have hguard : chunkGuardCompleted c = false := by
        simp [chunkGuardCompleted, hs]
      simp [hguard, hs, ih]

/-- The plain guard collects exactly the contributions of all chunks, in
order (chunks with empty data contribute nothing either way). -/
theorem collectedVals_one_plain (chunks : List MChunk) (f : String) :
    collectedVals chunkGuardPlain chunks 1 f =
      chunks.flatMap (fun c => contribution c f) := by
  induction chunks with
  | nil => rfl
  | cons c rest ih =>
    simp only [collectedVals, List.flatMap_cons] at *
    by_cases hd : c.extracted_data.isEmpty
    · have hguard : chunkGuardPlain c = false := by simp [chunkGuardPlain, hd]
      have hcon : contribution c f = [] :=
        contribution_of_empty c f (List.isEmpty_iff.mp hd)
      simp [hguard, hcon, ih]
    · have hguard : chunkGuardPlain c = true := by simp [chunkGuardPlain, hd]
      simp only [ncopies_one] at ih ⊢
      simp [hguard, ih]

/-- Full characterization of the merge pipeline at a requested field. -/
theorem merge_core_get (guard : MChunk → Bool) (chunks : List MChunk)
    (fields : List String) (f : String) (hf : f ∈ fields) :
    dedupPass fields (mergeCollect guard chunks fields (initFields fields)) f =
      some (dedupAux [] (collectedVals guard chunks 1 f)) := by
  have h0 : initFields fields f = some [] := by rw [initFields_get, if_pos hf]
  obtain ⟨k, hk⟩ : ∃ k, fields.count f = k + 1 :=
    ⟨fields.count f - 1, by have := List.one_le_count_iff.mpr hf; omega⟩
  have h1 := mergeCollect_get guard chunks fields _ f [] h0
  rw [hk] at h1
  simp only [List.nil_append] at h1
  have h2 := dedupPass_get fields _ f _ h1
  rw [h2]
  by_cases hempty : collectedVals guard chunks (k + 1) f = []
  · have h3 := dedupAux_collected guard f k chunks []
    rw [hempty] at h3
    simp only [hempty, hf, ne_eq, not_true_eq_false, and_false, if_false]
    rw [← h3]
    rfl
  · simp only [hf, hempty, ne_eq, not_false_eq_true, and_self, if_true]
    rw [dedupAux_collected guard f k chunks []]

/-- A field outside the requested list is absent from the merged dict. -/
theorem merge_core_notMem (guard : MChunk → Bool) (chunks : List MChunk)
    (fields : List String) (f : String) (hf : f ∉ fields) :
    dedupPass fields (mergeCollect guard chunks fields (initFields fields)) f = none := by
  rw [dedupPass_notMem _ _ _ hf, mergeCollect_notMem _ _ _ _ _ hf,
      initFields_get, if_neg hf]

/-- If no chunk contributes to a field, the collection is empty. -/
theorem collectedVals_of_no_contribution (guard : MChunk → Bool)
    (chunks : List MChunk) (k : Nat) (f : String)
    (h : ∀ c ∈ chunks, contribution c f = []) :
    collectedVals guard chunks k f = [] := by
  induction chunks with
  | nil => rfl
  | cons c rest ih =>
    simp only [collectedVals, List.flatMap_cons] at *
    rw [h c (List.mem_cons_self c rest), ih (fun c hc => h c (List.mem_cons_of_mem _ hc))]
    simp [ncopies_nil]

/-- C2 counterexample: the claim says the merge collects values only from
COMPLETED segments, but ChunkProcessor._merge_chunk_results has no status
check: a single FAILED segment reporting value v for field f yields
merged f = [v] where the claim predicts []. -/
theorem mergePlain_takes_failed_values :
    merge_chunk_results [⟨ChunkStatus.FAILED, [("f", FieldVal.str "v")]⟩] ["f"] "f"
      = some ["v"] ∧
    (⟨ChunkStatus.FAILED, [("f", FieldVal.str "v")]⟩ : MChunk).status ≠
      ChunkStatus.COMPLETED := by
  exact ⟨rfl, by decide⟩

/-- C2 amended: for every requested field f, the OptimizedChunkProcessor
merge returns exactly the first-occurrence deduplication of the values
reported by COMPLETED segments in sequence order (scalars appended, lists
flattened), while the ChunkProcessor merge does the same over all segments
with non-empty data regardless of status; in particular two COMPLETED
segments each reporting scalar "A1" merge to ["A1"], and two COMPLETED
segments reporting lists ["X","Y"] and ["Y","Z"] merge to ["X","Y","Z"]. -/
theorem mergeSegmentResults_characterization (chunks : List MChunk)
    (fields : List String) (f : String) (hf : f ∈ fields) :
    merge_chunk_results_optimized chunks fields f = some (specMergeField chunks f) ∧
    merge_chunk_results chunks fields f =
      some (dedupAux [] (chunks.flatMap (fun c => contribution c f))) ∧
    merge_chunk_results_optimized
      [⟨ChunkStatus.COMPLETED, [("invoice_number", FieldVal.str "A1")]⟩,
       ⟨ChunkStatus.COMPLETED, [("invoice_number", FieldVal.str "A1")]⟩]
      ["invoice_number"] "invoice_number" = some ["A1"] ∧
    merge_chunk_results_optimized
      [⟨ChunkStatus.COMPLETED, [("reference_id", FieldVal.arr ["X", "Y"])]⟩,
       ⟨ChunkStatus.COMPLETED, [("reference_id", FieldVal.arr ["Y", "Z"])]⟩]
      ["reference_id"] "reference_id" = some ["X", "Y", "Z"] := by
  refine ⟨?_, ?_, rfl, rfl⟩
  · rw [merge_chunk_results_optimized, merge_core_get _ _ _ _ hf,
        collectedVals_one_completed, specMergeField]
  · rw [merge_chunk_results, merge_core_get _ _ _ _ hf, collectedVals_one_plain]

/-- Witness for C2 amended at a concrete input. -/
theorem mergeSegmentResults_characterization_witness :
    merge_chunk_results_optimized
        [⟨ChunkStatus.COMPLETED, [("a", FieldVal.str "u")]⟩,
         ⟨ChunkStatus.FAILED, [("a", FieldVal.str "w")]⟩] ["a"] "a" =
      some (specMergeField
        [⟨ChunkStatus.COMPLETED, [("a", FieldVal.str "u")]⟩,
         ⟨ChunkStatus.FAILED, [("a", FieldVal.str "w")]⟩] "a") :=
  (mergeSegmentResults_characterization
    [⟨ChunkStatus.COMPLETED, [("a", FieldVal.str "u")]⟩,
     ⟨ChunkStatus.FAILED, [("a", FieldVal.str "w")]⟩] ["a"] "a" (by decide)).1

/-- C10: for both merge implementations, the merged dict binds exactly the
requested field names (extra keys in segment data never appear), every bound
value is a duplicate-free list, and a requested field to which no segment
contributes is bound to the empty list rather than omitted or null. -/
theorem merged_result_shape (chunks : List MChunk) (fields : List String)
    (f : String) :
    ((merge_chunk_results chunks fields f).isSome ↔ f ∈ fields) ∧
    ((merge_chunk_results_optimized chunks fields f).isSome ↔ f ∈ fields) ∧
    (∀ l, merge_chunk_results chunks fields f = some l → l.Nodup) ∧
    (∀ l, merge_chunk_results_optimized chunks fields f = some l → l.Nodup) ∧
    (f ∈ fields → (∀ c ∈ chunks, contribution c f = []) →
      merge_chunk_results chunks fields f = some [] ∧
      merge_chunk_results_optimized chunks fields f = some []) := by
  have hsome : ∀ guard, f ∈ fields →
      (dedupPass fields (mergeCollect guard chunks fields (initFields fields)) f).isSome := by
    intro guard hf
    rw [merge_core_get guard chunks fields f hf]
    rfl
  have hnone : ∀ guard, f ∉ fields →
      dedupPass fields (mergeCollect guard chunks fields (initFields fields)) f = none := by
    intro guard hf
    exact merge_core_notMem guard chunks fields f hf
  have hnodup : ∀ guard l,
      dedupPass fields (mergeCollect guard chunks fields (initFields fields)) f = some l →
      l.Nodup := by
    intro guard l hl
    by_cases hf : f ∈ fields
    · rw [merge_core_get guard chunks fields f hf] at hl
      cases hl
      exact dedupAux_nodup _ _
    · rw [hnone guard hf] at hl
      cases hl
  have hempty : ∀ guard, f ∈ fields → (∀ c ∈ chunks, contribution c f = []) →
      dedupPass fields (mergeCollect guard chunks fields (initFields fields)) f = some [] := by
    intro guard hf hc
    rw [merge_core_get guard chunks fields f hf,
        collectedVals_of_no_contribution guard chunks 1 f hc]
    rfl
  constructor
  · constructor
    · intro hs
      by_contra hf
      rw [merge_chunk_results] at hs
      rw [hnone _ hf] at hs
      simp at hs
    · intro hf
      exact hsome _ hf
  constructor
  · constructor
    · intro hs
      by_contra hf
      rw [merge_chunk_results_optimized] at hs
      rw [hnone _ hf] at hs
      simp at hs
    · intro hf
      exact hsome _ hf
  exact ⟨fun l => hnodup _ l, fun l => hnodup _ l,
    fun hf hc => ⟨hempty _ hf hc, hempty _ hf hc⟩⟩

/-- Witness for C10 at a concrete input: one COMPLETED chunk with an extra
key "other" not among the requested fields. -/
theorem merged_result_shape_witness :
    merge_chunk_results
        [⟨ChunkStatus.COMPLETED, [("other", FieldVal.str "x")]⟩] ["x"] "x" = some [] ∧
    merge_chunk_results_optimized
        [⟨ChunkStatus.COMPLETED, [("other", FieldVal.str "x")]⟩] ["x"] "x" = some [] :=
  (merged_result_shape
      [⟨ChunkStatus.COMPLETED, [("other", FieldVal.str "x")]⟩] ["x"] "x").2.2.2.2
    (by decide) (by decide)

/-! ### RateLimiter lemmas (C4) -/

theorem inWindow_iff (τ t : ℚ) : inWindow τ t = true ↔ (τ - 60 < t ∧ t ≤ τ) := by
  simp [inWindow]

theorem filter_length_mono (l : List ℚ) (p q : ℚ → Bool)
    (h : ∀ x ∈ l, p x = true → q x = true) :
    (l.filter p).length ≤ (l.filter q).length := by
  induction l with
  | nil => simp
  | cons x rest ih =>
    have ih' := ih (fun y hy => h y (List.mem_cons_of_mem x hy))
    by_cases hp : p x = true
    · have hq := h x (List.mem_cons_self x rest) hp
      simp only [List.filter_cons, hp, hq, if_true, List.length_cons]
      omega
    · by_cases hq : q x = true
      · simp [List.filter_cons, hp, hq]
        omega
      · simp [List.filter_cons, hp, hq]
        exact ih'

theorem filter_absorb (l : List ℚ) (w p : ℚ → Bool)
    (h : ∀ x ∈ l, w x = true → p x = true) :
    l.filter w = (l.filter p).filter w := by
  induction l with
  | nil => rfl
  | cons x rest ih =>
    have ih' := ih (fun y hy => h y (List.mem_cons_of_mem x hy))
    by_cases hw : w x = true
    · have hp := h x (List.mem_cons_self x rest) hw
      simp only [List.filter_cons, hw, hp, if_true]
      rw [ih']
    · by_cases hp : p x = true
      · simp only [List.filter_cons, hw, hp, if_true, if_false]
        exact ih'
      · simp only [List.filter_cons, hw, hp, if_false]
        exact ih'

/-- A sorted list splits into the entries dropped by an upward-closed filter
followed by the entries it keeps. -/
theorem sorted_filter_split (l : List ℚ) (p : ℚ → Bool)
    (hs : l.Sorted (· ≤ ·))
    (hmono : ∀ x y : ℚ, x ≤ y → p x = true → p y = true) :
    ∃ u, l = u ++ l.filter p ∧ ∀ t ∈ u, p t = false := by
  induction l with
  | nil => exact ⟨[], rfl, by simp⟩
  | cons x rest ih =>
    have hx : ∀ y ∈ rest, x ≤ y := (List.sorted_cons.mp hs).1
    have hrest : rest.Sorted (· ≤ ·) := (List.sorted_cons.mp hs).2
    by_cases hp : p x = true
    · refine ⟨[], ?_, by simp⟩
      have hall : ∀ y ∈ x :: rest, p y = true := by
        intro y hy
        rcases List.mem_cons.mp hy with rfl | hy
        · exact hp
        · exact hmono x y (hx y hy) hp
      rw [List.filter_eq_self.mpr hall, List.nil_append]
    · obtain ⟨u, hu, hfu⟩ := ih hrest
      refine ⟨x :: u, ?_, ?_⟩
      · simp only [List.filter_cons, hp, if_false, List.cons_append]
        exact congrArg (x :: ·) hu
      · intro t ht
        rcases List.mem_cons.mp ht with rfl | ht
        · simpa using hp
        · exact hfu t ht

/-- Appending one admission keeps every window at or below N as long as every
window containing the new admission had at most N - 1 old entries. -/
theorem window_after_append (N : Nat) (Apre : List ℚ) (T : ℚ)
    (hwin : ∀ τ : ℚ, ((Apre.filter (inWindow τ)).length ≤ N))
    (hT : ∀ τ : ℚ, inWindow τ T = true → ((Apre.filter (inWindow τ)).length + 1 ≤ N)) :
    ∀ τ : ℚ, (((Apre ++ [T]).filter (inWindow τ)).length ≤ N) := by
  intro τ
  rw [List.filter_append, List.length_append]
  by_cases h : inWindow τ T = true
  · have := hT τ h
    simp only [List.filter_cons, h, if_true, List.filter_nil, List.length_cons,
      List.length_nil]
    omega
  · simp [List.filter_cons, h]
    have := hwin τ
    omega

/-- Entries at least 60 seconds old at time `now` never lie in a window whose
right end is at or after `now`. -/
theorem dropped_filter_nil (dropped : List ℚ) (now τ : ℚ)
    (hdrop : ∀ t ∈ dropped, 60 ≤ now - t) (hτ : now - 60 ≤ τ - 60) :
    dropped.filter (inWindow τ) = [] := by
  refine List.filter_eq_nil_iff.mpr (fun t ht => ?_)
  intro hc
  rw [inWindow_iff] at hc
  have := hdrop t ht
  have : t ≤ now - 60 := by linarith
  have : t ≤ τ - 60 := by linarith
  exact absurd hc.1 (by linarith)

/-- Master invariant for runRL: from a stored list whose recent entries
respect the cap, with an admission history Apre splitting into expired
entries followed by the stored list, and every trailing window of Apre
holding at most N admissions, every trailing window of the extended
admission history also holds at most N; every call is admitted, at or after
the current clock. -/
theorem runRL_invariant (N : Nat) (hN : 1 ≤ N) (ds : List ℚ) :
    ∀ (s Apre dropped : List ℚ) (now : ℚ),
    (∀ d ∈ ds, 0 ≤ d) →
    s.Sorted (· ≤ ·) →
    (∀ t ∈ s, t ≤ now) →
    ((rlFiltered s now).length ≤ N) →
    Apre = dropped ++ s →
    (∀ t ∈ dropped, 60 ≤ now - t) →
    (∀ τ : ℚ, ((Apre.filter (inWindow τ)).length ≤ N)) →
    (∀ τ : ℚ, (((Apre ++ runRL N s now ds).filter (inWindow τ)).length ≤ N)) ∧
    (runRL N s now ds).length = ds.length ∧
    (∀ T ∈ runRL N s now ds, now ≤ T) := by
  induction ds with
  | nil =>
    intro s Apre dropped now _ _ _ _ _ _ hwin
    refine ⟨fun τ => ?_, rfl, by simp [runRL]⟩
    simpa [runRL] using hwin τ
  | cons d ds ih =>
    intro s Apre dropped now hds hsort hle hfil hsplit hdrop hwin
    have hd0 : 0 ≤ d := hds d (List.mem_cons_self _ _)
    have hds' : ∀ x ∈ ds, 0 ≤ x := fun x hx => hds x (List.mem_cons_of_mem _ hx)
    have hnowa : now ≤ now + d := by linarith
    have himp : ∀ x ∈ s, (decide (now + d - x < 60)) = true →
        (decide (now - x < 60)) = true := by
      intro x _ hx
      rw [decide_eq_true_eq] at *
      linarith
    have hF1 : (rlFiltered s (now + d)).length ≤ N := by
      calc (rlFiltered s (now + d)).length
          ≤ (rlFiltered s now).length := filter_length_mono s _ _ himp
        _ ≤ N := hfil
    have hmono : ∀ x y : ℚ, x ≤ y → (decide (now + d - x < 60)) = true →
        (decide (now + d - y < 60)) = true := by
      intro x y hxy hx
      rw [decide_eq_true_eq] at *
      linarith
    obtain ⟨sOld, hsOld, hsOldF⟩ :
        ∃ u, s = u ++ rlFiltered s (now + d) ∧
          ∀ t ∈ u, (decide (now + d - t < 60)) = false := by
      obtain ⟨u, hu1, hu2⟩ := sorted_filter_split s
        (fun t => decide (now + d - t < 60)) hsort hmono
      exact ⟨u, hu1, hu2⟩
    have hsOldN : ∀ t ∈ sOld, ¬(now + d - t < 60) := by
      intro t ht
      have := hsOldF t ht
      simpa using this
    have hmemF : ∀ x ∈ rlFiltered s (now + d), x ∈ s ∧ now + d - x < 60 := by
      intro x hx
      rw [rlFiltered] at hx
      have h := List.mem_filter.mp hx
      exact ⟨h.1, by simpa using h.2⟩
    have hleF : ∀ x ∈ rlFiltered s (now + d), x ≤ now :=
      fun x hx => hle x (hmemF x hx).1
    have hsortF : (rlFiltered s (now + d)).Sorted (· ≤ ·) := by
      rw [rlFiltered]
      exact hsort.filter _
    set T := rlAdmit N s (now + d) with hTdef
    have keyfacts : (now + d ≤ T) ∧
        ((rlFiltered (rlFiltered s (now + d) ++ [T]) T).length ≤ N) ∧
        (∀ τ : ℚ, inWindow τ T = true →
          ((Apre.filter (inWindow τ)).length + 1 ≤ N)) := by
      by_cases hcap : N ≤ (rlFiltered s (now + d)).length
      · -- at capacity: the call sleeps past the oldest retained entry
        have hlenN : (rlFiltered s (now + d)).length = N := le_antisymm hF1 hcap
        rcases hfc : rlFiltered s (now + d) with _ | ⟨oldest, tail⟩
        · rw [hfc] at hlenN
          simp at hlenN
          omega
        have holdest : oldest ∈ s ∧ now + d - oldest < 60 := by
          refine hmemF oldest ?_
          rw [hfc]
          exact List.mem_cons_self _ _
        have holdD : rlOldest s (now + d) = oldest := by
          rw [rlOldest, hfc]
          rfl
        have hwaitval : rlWait s (now + d) = 60 - (now + d - oldest) + 1 / 10 := by
          rw [rlWait, holdD]
        have hwpos : 0 < rlWait s (now + d) := by
          rw [hwaitval]
          linarith [holdest.2]
        have hTB : T = oldest + 60 + 1 / 10 := by
          rw [hTdef, rlAdmit, if_pos hcap, if_pos hwpos, hwaitval]
          ring
        have hTge : now + d ≤ T := by
          rw [hTB]
          linarith [holdest.2]
        have htail : tail.length + 1 = N := by
          rw [hfc] at hlenN
          simpa using hlenN
        refine ⟨hTge, ?_, ?_⟩
        · -- recent entries of the new stored list at the new clock
          have hsplit1 : rlFiltered (oldest :: tail ++ [T]) T
              = (oldest :: tail).filter (fun t => decide (T - t < 60))
                ++ [T].filter (fun t => decide (T - t < 60)) := List.filter_append _ _
          have hold_not : (decide (T - oldest < 60)) = false := by
            rw [decide_eq_false_iff_not, hTB]
            intro h
            linarith
          have h2 : ([T].filter (fun t => decide (T - t < 60))).length ≤ 1 :=
            List.length_filter_le _ [T]
          rw [hsplit1, List.length_append, List.filter_cons, hold_not]
          simp only [Bool.false_eq_true, if_false]
          have h3 := List.length_filter_le (fun t => decide (T - t < 60)) tail
          omega
        · -- windows containing the new admission held at most N - 1 entries
          intro τ hτ
          rw [inWindow_iff] at hτ
          rw [hsplit, List.filter_append, List.length_append,
              dropped_filter_nil dropped now τ hdrop (by linarith)]
          simp only [List.length_nil]
          have habs : s.filter (inWindow τ) =
              (rlFiltered s (now + d)).filter (inWindow τ) := by
            rw [rlFiltered]
            refine filter_absorb s _ _ (fun x hx hwx => ?_)
            rw [inWindow_iff] at hwx
            rw [decide_eq_true_eq]
            linarith [hwx.1, hwx.2, hτ.2, hTge]
          have hwold : inWindow τ oldest = false := by
            rw [Bool.eq_false_iff]
            intro hc
            rw [inWindow_iff] at hc
            rw [hTB] at hτ
            linarith [hc.1, hτ.2]
          rw [habs, hfc, List.filter_cons, hwold]
          simp only [Bool.false_eq_true, if_false]
          have h3 := List.length_filter_le (inWindow τ) tail
          omega
      · -- below capacity: admitted immediately at the arrival time
        have hTA : T = now + d := by
          rw [hTdef, rlAdmit, if_neg hcap]
        have hlenA : (rlFiltered s (now + d)).length + 1 ≤ N := by omega
        refine ⟨le_of_eq hTA.symm, ?_, ?_⟩
        · have hsplit1 : rlFiltered (rlFiltered s (now + d) ++ [T]) T
              = (rlFiltered s (now + d)).filter (fun t => decide (T - t < 60))
                ++ [T].filter (fun t => decide (T - t < 60)) := List.filter_append _ _
          have h1 : (rlFiltered s (now + d)).filter (fun t => decide (T - t < 60)) =
              rlFiltered s (now + d) := by
            refine List.filter_eq_self.mpr (fun x hx => ?_)
            rw [decide_eq_true_eq, hTA]
            exact (hmemF x hx).2
          have h2 : ([T].filter (fun t => decide (T - t < 60))).length ≤ 1 :=
            List.length_filter_le _ [T]
          rw [hsplit1, h1, List.length_append]
          omega
        · intro τ hτ
          rw [inWindow_iff] at hτ
          rw [hTA] at hτ
          rw [hsplit, List.filter_append, List.length_append,
              dropped_filter_nil dropped now τ hdrop (by linarith)]
          simp only [List.length_nil]
          have hb : (s.filter (inWindow τ)).length ≤ (rlFiltered s (now + d)).length := by
            rw [rlFiltered]
            refine filter_length_mono s _ _ (fun x hx hwx => ?_)
            rw [inWindow_iff] at hwx
            rw [decide_eq_true_eq]
            linarith [hwx.1, hwx.2, hτ.2]
          omega
    obtain ⟨haT, hfilNext, hwinT⟩ := keyfacts
    have hgeT : now ≤ T := le_trans hnowa haT
    have hsortNext : (rlFiltered s (now + d) ++ [T]).Sorted (· ≤ ·) := by
      refine List.pairwise_append.mpr ⟨hsortF, List.pairwise_singleton _ _, ?_⟩
      intro x hx y hy
      rw [List.mem_singleton] at hy
      subst hy
      exact le_trans (hleF x hx) hgeT
    have hleNext : ∀ t ∈ rlFiltered s (now + d) ++ [T], t ≤ T := by
      intro t ht
      rcases List.mem_append.mp ht with ht | ht
      · exact le_trans (hleF t ht) hgeT
      · rw [List.mem_singleton] at ht
        exact le_of_eq ht
    have hsplitNext : Apre ++ [T] =
        (dropped ++ sOld) ++ (rlFiltered s (now + d) ++ [T]) := by
      rw [hsplit]
      conv_lhs => rw [hsOld]
      simp [List.append_assoc]
    have hdropNext : ∀ t ∈ dropped ++ sOld, 60 ≤ T - t := by
      intro t ht
      rcases List.mem_append.mp ht with ht | ht
      · have := hdrop t ht
        linarith
      · have := hsOldN t ht
        linarith
    have hwinNext := window_after_append N Apre T hwin hwinT
    have IH := ih (rlFiltered s (now + d) ++ [T]) (Apre ++ [T]) (dropped ++ sOld) T
      hds' hsortNext hleNext hfilNext hsplitNext hdropNext hwinNext
    have hrun : runRL N s now (d :: ds) =
        T :: runRL N (rlFiltered s (now + d) ++ [T]) T ds := rfl
    refine ⟨?_, ?_, ?_⟩
    · intro τ
      rw [hrun, List.append_cons]
      exact IH.1 τ
    · rw [hrun]
      simp [IH.2.1]
    · intro T' hT'
      rw [hrun] at hT'
      rcases List.mem_cons.mp hT' with rfl | hT'
      · exact hgeT
      · exact le_trans hgeT (IH.2.2 T' hT')

/-- Each single call is only delayed, never rejected: its admission timestamp
is at or after its arrival time. -/
theorem rlAdmit_ge (N : Nat) (times : List ℚ) (now : ℚ) :
    now ≤ rlAdmit N times now := by
  rw [rlAdmit]
  by_cases h1 : N ≤ (rlFiltered times now).length
  · rw [if_pos h1]
    by_cases h2 : 0 < rlWait times now
    · rw [if_pos h2]
      linarith
    · rw [if_neg h2]
  · rw [if_neg h1]

/-- C4: for a RateLimiter with max_rpm = N >= 1 and any sequence of
sequential wait_if_needed calls (each arriving a nonnegative delay after the
previous one returned), every call is admitted, each single call's admission
is at or after its arrival (the limiter only delays, it never errors), and
no trailing 60-second window ever contains more than N admission
timestamps. -/
theorem rateLimiter_window_bound (N : Nat) (hN : 1 ≤ N) (delays : List ℚ)
    (hdelays : ∀ d ∈ delays, 0 ≤ d) :
    (admittedTimes N delays).length = delays.length ∧
    (∀ (times : List ℚ) (now : ℚ), now ≤ (wait_if_needed N times now).2) ∧
    (∀ τ : ℚ, (((admittedTimes N delays).filter (inWindow τ)).length ≤ N)) := by
  have h := runRL_invariant N hN delays [] [] [] 0 hdelays List.sorted_nil
    (by simp) (by simp [rlFiltered]) rfl (by simp) (by simp)
  refine ⟨h.2.1, fun times now => rlAdmit_ge N times now, fun τ => ?_⟩
  have := h.1 τ
  simpa [admittedTimes] using this

/-- Witness for C4: a burst of two immediate calls against max_rpm = 1. -/
theorem rateLimiter_window_bound_witness :
    (admittedTimes 1 [0, 0]).length = ([0, 0] : List ℚ).length ∧
    (∀ (times : List ℚ) (now : ℚ), now ≤ (wait_if_needed 1 times now).2) ∧
    (∀ τ : ℚ, (((admittedTimes 1 [0, 0]).filter (inWindow τ)).length ≤ 1)) :=
  rateLimiter_window_bound 1 (by norm_num) [0, 0]
    (by
      intro d hd
      simp only [List.mem_cons, List.not_mem_nil, or_false] at hd
      rcases hd with rfl | rfl <;> norm_num)

/-! ### ShouldSegment error handling (C7) -/

/-- C7 counterexample: the claim says should_chunk_document fails with an
IOError surfaced to the caller when the file cannot be opened; in the code
the try-block does raise, but the except-clause catches every error and the
caller receives the normal triple (False, 0, 0) instead. -/
theorem shouldSegment_swallows_ioerror :
    shouldChunkBody FileProbe.noFile = Except.error "file not found" ∧
    should_chunk_document FileProbe.noFile = (false, 0, 0) :=
  ⟨rfl, rfl⟩

/-- C7 amended: for every path whose file cannot be opened or is not a valid
paginated document, should_chunk_document catches the error and returns the
normal result (False, 0, 0.0) to the caller instead of raising. -/
theorem shouldSegment_error_returns_default (f : FileProbe)
    (h : ∃ e, shouldChunkBody f = Except.error e) :
    should_chunk_document f = (false, 0, 0) := by
  obtain ⟨e, he⟩ := h
  rw [should_chunk_document, he]

/-- Witness for C7 amended at the missing-file probe. -/
theorem shouldSegment_error_returns_default_witness :
    (∃ e, shouldChunkBody FileProbe.noFile = Except.error e) ∧
    should_chunk_document FileProbe.noFile = (false, 0, 0) :=
  ⟨⟨"file not found", rfl⟩,
    shouldSegment_error_returns_default FileProbe.noFile ⟨"file not found", rfl⟩⟩

/-! ### Extraction tiers (C3, C5) -/

/-- The recorded extraction method of extract_document is always one of
none, FAILED, OPENAI_FALLBACK or LANDING_AI_SDK. -/
theorem extract_document_method_cases (env : ExtractEnv)
    (sel cust : List String) :
    (extract_document env sel cust).method = none ∨
    (extract_document env sel cust).method = some "FAILED" ∨
    (extract_document env sel cust).method = some "OPENAI_FALLBACK" ∨
    (extract_document env sel cust).method = some "LANDING_AI_SDK" := by
  rcases env with ⟨pm, pmo, oa, oraw⟩
  cases pm with
  | raises =>
      cases pmo with
      | raises => simp [extract_document, extractBody, extractHandler]
      | returns docs =>
          cases docs with
          | nil => simp [extract_document, extractBody, extractHandler]
          | cons d rest => simp [extract_document, extractBody, extractHandler]
  | returns docs =>
      cases docs with
      | nil =>
          cases pmo with
          | raises => simp [extract_document, extractBody, extractHandler]
          | returns docs2 =>
              cases docs2 with
              | nil => simp [extract_document, extractBody, extractHandler]
              | cons d rest =>
                  by_cases hc : d.markdown ≠ "" ∧ oa = true
                  · right; right; left
                    simp [extract_document, extractBody, hc]
                  · right; left
                    simp [extract_document, extractBody, hc]
      | cons d rest =>
          by_cases hc : (List.isEmpty ((d.extraction).getD []) ||
              (((d.extraction).getD []).filter
                (fun p => !(p.2 == FieldVal.null) && !(p.1 == "full_content"))).isEmpty) = true ∧
              d.markdown ≠ ""
          · right; right; left
            simp [extract_document, extractBody, hc]
          · right; right; right
            simp only [extract_document, extractBody, if_neg hc]

/-- C3 counterexample: with the library tier raising (the claim's page-limit
scenario), the remote-API tier available and the language-model tier
configured, the recorded method after extract_document is not the remote-API
tier: the exception path records no method at all.  (The remote-API helper
is never consulted, so the environment does not even enter the result.) -/
theorem extract_tier_counterexample :
    (extract_document
        ⟨SdkParse.raises, SdkParse.returns [⟨"md", none, []⟩], true, fun _ => none⟩
        ["f"] []).method = none ∧
    (extract_document
        ⟨SdkParse.raises, SdkParse.returns [⟨"md", none, []⟩], true, fun _ => none⟩
        ["f"] []).method ≠ some "LANDING_AI_API" := by
  exact ⟨rfl, by decide⟩

/-- C3 amended: extract_document never records the remote-API tier
(LANDING_AI_API): the remote-API helper _extract_using_landing_ai_api is not
called by extract_document.  When the library tier returns a document with
no structured extraction and non-empty markdown, extract_document falls back
directly to the language-model tier and records OPENAI_FALLBACK. -/
theorem extract_tier_fallback (env : ExtractEnv) (sel cust : List String)
    (d : ParsedDoc) (rest : List ParsedDoc)
    (h1 : env.parseWithModel = SdkParse.returns (d :: rest))
    (h2 : d.extraction = none)
    (h3 : d.markdown ≠ "") :
    (extract_document env sel cust).method = some "OPENAI_FALLBACK" ∧
    (∀ (env₂ : ExtractEnv) (s₂ c₂ : List String),
      (extract_document env₂ s₂ c₂).method ≠ some "LANDING_AI_API") := by
  constructor
  · have hneeds : (List.isEmpty ((d.extraction).getD []) ||
        (((d.extraction).getD []).filter
          (fun p => !(p.2 == FieldVal.null) && !(p.1 == "full_content"))).isEmpty) = true ∧
        d.markdown ≠ "" := by
      refine ⟨?_, h3⟩
      rw [h2]
      rfl
    simp only [extract_document, extractBody, h1, if_pos hneeds]
  · intro env₂ s₂ c₂
    rcases extract_document_method_cases env₂ s₂ c₂ with h | h | h | h <;>
      simp [h]

/-- Witness for C3 amended: the library tier parses the document but extracts
nothing; the recorded method is the language-model fallback. -/
theorem extract_tier_fallback_witness :
    (extract_document
        ⟨SdkParse.returns [⟨"text", none, []⟩], SdkParse.returns [], true,
          fun fs => some (allNull fs)⟩ ["f"] []).method = some "OPENAI_FALLBACK" :=
  (extract_tier_fallback
    ⟨SdkParse.returns [⟨"text", none, []⟩], SdkParse.returns [], true,
      fun fs => some (allNull fs)⟩ ["f"] [] ⟨"text", none, []⟩ [] rfl rfl
    (by decide)).1

/-- C5 counterexample: when the library tier raises and the markdown retry
succeeds, all tiers have produced no field value, yet the result carries no
FAILED indicator (its metadata is absent) and the data dict covers only the
selected fields: the requested custom field "b" is missing entirely. -/
theorem extract_failed_counterexample :
    (extract_document
        ⟨SdkParse.raises, SdkParse.returns [⟨"md", none, []⟩], false, fun _ => none⟩
        ["a"] ["b"]).method = none ∧
    dataGet (extract_document
        ⟨SdkParse.raises, SdkParse.returns [⟨"md", none, []⟩], false, fun _ => none⟩
        ["a"] ["b"]).data "b" = none := by
  exact ⟨rfl, rfl⟩

/-- C5 amended: extract_document never raises (every body error is answered
by the handler).  The all-null map with the FAILED indicator is produced
exactly on the path where the schema parse returned an empty result list,
the markdown retry succeeded, and the language-model tier was unavailable
(or the markdown empty); there the data covers all requested fields.  On the
exception path the result is all-null over the selected fields only, with no
method indicator. -/
theorem extract_exhausted_behaviour (env : ExtractEnv) (sel cust : List String)
    (d : ParsedDoc) (rest : List ParsedDoc) (e : String)
    (hpm : env.parseWithModel = SdkParse.returns [])
    (hpmo : env.parseMarkdownOnly = SdkParse.returns (d :: rest))
    (hno : ¬(d.markdown ≠ "" ∧ env.openaiAvailable = true)) :
    extract_document env sel cust =
      { data := allNull (sel ++ cust), markdown := d.markdown,
        method := some "FAILED" } ∧
    (∀ (env₂ : ExtractEnv) (s₂ c₂ : List String) (e₂ : String),
      extractBody env₂ s₂ c₂ = Except.error e₂ →
        extract_document env₂ s₂ c₂ = extractHandler env₂ s₂ e₂) ∧
    (∀ (env₂ : ExtractEnv) (s₂ c₂ : List String),
      env₂.parseWithModel = SdkParse.raises →
        (extract_document env₂ s₂ c₂).data = allNull s₂ ∧
        (extract_document env₂ s₂ c₂).method = none) ∧
    (e = e) := by
  refine ⟨?_, ?_, ?_, rfl⟩
  · simp only [extract_document, extractBody, hpm, hpmo, if_neg hno]
  · intro env₂ s₂ c₂ e₂ hb
    rw [extract_document, hb]
  · intro env₂ s₂ c₂ hpm₂
    have hb : extractBody env₂ s₂ c₂ = Except.error "parse raised" := by
      rw [extractBody, hpm₂]
    rw [extract_document, hb]
    cases hmo : env₂.parseMarkdownOnly with
    | raises => simp [extractHandler, hmo]
    | returns docs =>
        cases docs with
        | nil => simp [extractHandler, hmo]
        | cons d2 r2 => simp [extractHandler, hmo]

/-- Witness for C5 amended: schema parse empty, markdown retry succeeds with
empty markdown, language-model tier unavailable; result is the all-null map
with the FAILED tag. -/
theorem extract_exhausted_behaviour_witness :
    extract_document
        ⟨SdkParse.returns [], SdkParse.returns [⟨"", none, []⟩], false, fun _ => none⟩
        ["a"] ["b"] =
      { data := allNull (["a"] ++ ["b"]), markdown := "",
        method := some "FAILED" } :=
  (extract_exhausted_behaviour
    ⟨SdkParse.returns [], SdkParse.returns [⟨"", none, []⟩], false, fun _ => none⟩
    ["a"] ["b"] ⟨"", none, []⟩ [] "e" rfl rfl (by decide)).1

/-! ### Chunk-processing control flow (C6, C9) -/

/-- The loop processes every chunk exactly once, applying its outcome. -/
theorem chunkLoop_chunks (tc : Nat) (done : List PChunk) (m : PMetrics)
    (res : Nat) (todo : List (PChunk × COutcome)) :
    (chunkLoop tc done m res todo).1 =
      done ++ todo.map (fun p => applyOutcome p.1 p.2) := by
  induction todo generalizing done m res with
  | nil => simp [chunkLoop]
  | cons p rest ih =>
    obtain ⟨c, o⟩ := p
    cases o with
    | ok => simp [chunkLoop, ih, List.append_assoc]
    | empty => simp [chunkLoop, ih, List.append_assoc]
    | raises => simp [chunkLoop, ih, List.append_assoc]

/-- When the final chunk's outcome is non-raising, the last metrics update
recounts over the fully processed chunk list. -/
theorem chunkLoop_metrics_last (tc : Nat) (xs : List (PChunk × COutcome))
    (c : PChunk) (o : COutcome) (ho : o ≠ COutcome.raises) :
    ∀ (done : List PChunk) (m : PMetrics) (res : Nat),
    (chunkLoop tc done m res (xs ++ [(c, o)])).2.1 =
      update_metrics
        (done ++ (xs ++ [(c, o)]).map (fun p => applyOutcome p.1 p.2)) tc := by
  induction xs with
  | nil =>
    intro done m res
    cases o with
    | ok => simp [chunkLoop]
    | empty => simp [chunkLoop]
    | raises => exact absurd rfl ho
  | cons q qs ih =>
    intro done m res
    obtain ⟨cq, oq⟩ := q
    cases oq with
    | ok =>
      simp only [List.cons_append, chunkLoop, List.append_eq]
      rw [ih]
      simp [List.append_assoc]
    | empty =>
      simp only [List.cons_append, chunkLoop, List.append_eq]
      rw [ih]
      simp [List.append_assoc]
    | raises =>
      simp only [List.cons_append, chunkLoop, List.append_eq]
      rw [ih]
      simp [List.append_assoc]

/-- C6 counterexample: two pending chunks; the first succeeds, the second
fails with an exception (its status ends FAILED).  The document still ends
EXTRACTED, but the metrics' has_failures flag is false, because
_update_metrics runs only after non-raising chunks and the failure was the
last chunk. -/
theorem document_extracted_without_failure_flag :
    (process_document_chunks
        [(⟨1, 10, ChunkStatus.PENDING, none⟩, COutcome.ok),
         (⟨2, 10, ChunkStatus.PENDING, none⟩, COutcome.raises)]
        ⟨0, 0, 0, false, false⟩).docStatus = DocumentStatus.EXTRACTED ∧
    ((process_document_chunks
        [(⟨1, 10, ChunkStatus.PENDING, none⟩, COutcome.ok),
         (⟨2, 10, ChunkStatus.PENDING, none⟩, COutcome.raises)]
        ⟨0, 0, 0, false, false⟩).chunks.map (fun c => c.status)) =
      [ChunkStatus.COMPLETED, ChunkStatus.FAILED] ∧
    (process_document_chunks
        [(⟨1, 10, ChunkStatus.PENDING, none⟩, COutcome.ok),
         (⟨2, 10, ChunkStatus.PENDING, none⟩, COutcome.raises)]
        ⟨0, 0, 0, false, false⟩).metrics.has_failures = false := by
  exact ⟨rfl, rfl, rfl⟩

/-- C6 amended: with at least one segment, the document always transitions
to EXTRACTED with no error message regardless of segment failures; the
document is FAILED exactly when the control logic itself raises (in-model:
the no-chunks error); and has_failures is set whenever some segment fails
provided a metrics update runs at or after the failure - in particular
whenever the final segment's outcome is non-raising. -/
theorem processDocumentChunks_failure_policy
    (chunks : List (PChunk × COutcome)) (m0 : PMetrics) :
    (chunks ≠ [] →
      (process_document_chunks chunks m0).docStatus = DocumentStatus.EXTRACTED ∧
      (process_document_chunks chunks m0).errorMessage = none) ∧
    ((process_document_chunks chunks m0).docStatus = DocumentStatus.FAILED ↔
      chunks = []) ∧
    (∀ (xs : List (PChunk × COutcome)) (c : PChunk) (o : COutcome),
      chunks = xs ++ [(c, o)] → o ≠ COutcome.raises →
      (∃ p ∈ chunks, p.2 ≠ COutcome.ok) →
      (process_document_chunks chunks m0).metrics.has_failures = true) := by
  have hproc : ∀ h : chunks ≠ [],
      process_document_chunks chunks m0 =
        { docStatus := DocumentStatus.EXTRACTED
          errorMessage := none
          chunks := (chunkLoop chunks.length [] m0 0 chunks).1
          metrics := (chunkLoop chunks.length [] m0 0 chunks).2.1
          completedChunks := (chunkLoop chunks.length [] m0 0 chunks).2.2 } := by
    intro h
    have hne : ¬(chunks.isEmpty = true) := fun hc => h (List.isEmpty_iff.mp hc)
    rw [process_document_chunks, if_neg hne]
  refine ⟨?_, ?_, ?_⟩
  · intro h
    rw [hproc h]
    exact ⟨rfl, rfl⟩
  · constructor
    · intro hf
      by_contra hne
      rw [hproc hne] at hf
      simp at hf
    · intro h
      subst h
      rw [process_document_chunks]
      rfl
  · intro xs c o heq ho hex
    subst heq
    obtain ⟨p, hp, hpo⟩ := hex
    have hne : xs ++ [(c, o)] ≠ [] := by simp
    rw [hproc hne]
    have hm : (chunkLoop (xs ++ [(c, o)]).length [] m0 0 (xs ++ [(c, o)])).2.1 =
        update_metrics ((xs ++ [(c, o)]).map (fun p => applyOutcome p.1 p.2))
          (xs ++ [(c, o)]).length := by
      rw [chunkLoop_metrics_last _ xs c o ho [] m0 0]
      rfl
    dsimp only
    rw [hm, update_metrics]
    dsimp only
    rw [decide_eq_true_eq]
    have hmem : applyOutcome p.1 p.2 ∈
        (xs ++ [(c, o)]).map (fun p => applyOutcome p.1 p.2) :=
      List.mem_map_of_mem _ hp
    have hfailed : (applyOutcome p.1 p.2).status == ChunkStatus.FAILED := by
      cases hpo2 : p.2 with
      | ok => exact absurd hpo2 hpo
      | empty => simp [applyOutcome]
      | raises => simp [applyOutcome]
    have hmem2 : applyOutcome p.1 p.2 ∈
        ((xs ++ [(c, o)]).map (fun p => applyOutcome p.1 p.2)).filter
          (fun c => c.status == ChunkStatus.FAILED) :=
      List.mem_filter.mpr ⟨hmem, hfailed⟩
    exact List.length_pos_of_mem hmem2

/-- Witness for C6 amended: one successful then one data-empty segment (its
chunk ends FAILED, the loop continues); the document is EXTRACTED and
has_failures is set because the last outcome is non-raising. -/
theorem processDocumentChunks_failure_policy_witness :
    (process_document_chunks
        [(⟨1, 10, ChunkStatus.PENDING, none⟩, COutcome.ok),
         (⟨2, 10, ChunkStatus.PENDING, none⟩, COutcome.empty)]
        ⟨0, 0, 0, false, false⟩).metrics.has_failures = true :=
  (processDocumentChunks_failure_policy
      [(⟨1, 10, ChunkStatus.PENDING, none⟩, COutcome.ok),
       (⟨2, 10, ChunkStatus.PENDING, none⟩, COutcome.empty)]
      ⟨0, 0, 0, false, false⟩).2.2
    [(⟨1, 10, ChunkStatus.PENDING, none⟩, COutcome.ok)]
    ⟨2, 10, ChunkStatus.PENDING, none⟩ COutcome.empty rfl (by decide)
    ⟨(⟨2, 10, ChunkStatus.PENDING, none⟩, COutcome.empty), by decide⟩

/-- C9 counterexample: the explicit retry command is not the only operation
moving a segment out of FAILED: process_document_chunks fetches chunks with
no status filter, so re-running it reprocesses a FAILED chunk, here all the
way to COMPLETED. -/
theorem processChunks_moves_failed_chunk :
    ((process_document_chunks
        [(⟨1, 10, ChunkStatus.FAILED, some "e"⟩, COutcome.ok)]
        ⟨0, 0, 0, false, false⟩).chunks.map (fun c => c.status)) =
      [ChunkStatus.COMPLETED] := by
  exact rfl

/-- C9 amended: the explicit retry command transitions a FAILED or RETRYING
segment to PENDING and clears its error message; on a segment in any other
status it is rejected with HTTP 400 and the segment is left unchanged.  (It
is not, however, the only operation that moves a segment out of FAILED:
re-running process_document_chunks also reprocesses FAILED segments.) -/
theorem retryChunk_behaviour (c : PChunk) :
    ((c.status = ChunkStatus.FAILED ∨ c.status = ChunkStatus.RETRYING) →
      retry_chunk_processing c =
        Except.ok { c with status := ChunkStatus.PENDING, error_message := none }) ∧
    (¬(c.status = ChunkStatus.FAILED ∨ c.status = ChunkStatus.RETRYING) →
      retry_chunk_processing c = Except.error 400) := by
  constructor
  · intro h
    rw [retry_chunk_processing, if_pos h]
  · intro h
    rw [retry_chunk_processing, if_neg h]

/-- Witness for C9 amended: a FAILED chunk is reset to PENDING with its
error cleared; a COMPLETED chunk is rejected with 400. -/
theorem retryChunk_behaviour_witness :
    retry_chunk_processing ⟨1, 10, ChunkStatus.FAILED, some "e"⟩ =
      Except.ok ⟨1, 10, ChunkStatus.PENDING, none⟩ ∧
    retry_chunk_processing ⟨1, 10, ChunkStatus.COMPLETED, none⟩ =
      Except.error 400 :=
  ⟨(retryChunk_behaviour ⟨1, 10, ChunkStatus.FAILED, some "e"⟩).1 (Or.inl rfl),
   (retryChunk_behaviour ⟨1, 10, ChunkStatus.COMPLETED, none⟩).2 (by decide)⟩

/-! ### Segment-size clamp (C8) -/

/-- C8: for every document (any base size configuration, any byte size, page
count, bytes-per-page density) and any recent-performance input, present or
absent, calculate_optimal_chunk_size returns between 10 and 45 pages. -/
theorem computeSegmentSize_bounds (basePages : Nat) (fileSizeMB : Option ℚ)
    (pageCount : Option Nat) (perf : Option ℚ) :
    10 ≤ calculate_optimal_chunk_size basePages fileSizeMB pageCount perf ∧
    calculate_optimal_chunk_size basePages fileSizeMB pageCount perf ≤ 45 := by
  have h : ∀ b2 : Nat, 10 ≤ max 10 (min b2 45) ∧ max 10 (min b2 45) ≤ 45 := by
    intro b2
    omega
  exact h _

end Apex
